import Mathlib

/-!
Verification of the core logic of the SublimeFileBrowser `dired.py` module:
directory listing, mark bookkeeping, target resolution, file operations and
the rename-by-diff commit algorithm, shallowly embedded as executable Lean
definitions, with theorems checking the specified properties.
-/

namespace Dired

/-! Python string and POSIX path primitives used by the source. -/

/-- Python `str.startswith`, as a test on the character sequence. -/
def pyStartsWith (s p : String) : Bool := List.isPrefixOf p.data s.data

/-- Python `str.endswith`, as a test on the character sequence. -/
def pyEndsWith (s p : String) : Bool := List.isSuffixOf p.data s.data

/-- Python `str.strip`: drop leading and trailing whitespace. -/
def pyStrip (s : String) : String :=
  ⟨((s.data.dropWhile Char.isWhitespace).reverse.dropWhile Char.isWhitespace).reverse⟩

/-- POSIX `os.sep`. -/
def osSep : String := "/"

/-- POSIX `os.path.isabs`. -/
def isabs (p : String) : Bool := pyStartsWith p "/"

/-- POSIX `os.path.join` restricted to two arguments, as the source uses it. -/
def pjoin (a b : String) : String :=
  if isabs b then b
  else if a = "" then b
  else if pyEndsWith a "/" then a ++ b
  else a ++ "/" ++ b

/-- POSIX `os.path.normcase`, which is the identity on POSIX systems. -/
def normcase (p : String) : String := p

/-! The directory listing of `DiredRefreshCommand.run` (src/dired.py:99-112).
A child of the directory is modelled as its name paired with the result of
the `isdir(join(path, name))` query. -/

namespace DiredRefreshCommand

/-- First loop of `DiredRefreshCommand.run`: the decorated directory lines,
in the order `os.listdir` returned the names. -/
def dirLines : List (String × Bool) → List String
  | [] => []
  | (name, d) :: rest =>
    if d then ("▸ " ++ name ++ osSep) :: dirLines rest else dirLines rest

/-- Second loop of `DiredRefreshCommand.run`: the decorated file lines. -/
def fileLines : List (String × Bool) → List String
  | [] => []
  | (name, d) :: rest =>
    if d then fileLines rest else ("≡ " ++ name) :: fileLines rest

/-- The rendered entry lines `f` of `DiredRefreshCommand.run`: all directory
lines, then all file lines. -/
def entryLines (children : List (String × Bool)) : List String :=
  dirLines children ++ fileLines children

end DiredRefreshCommand

/-! Target resolution: the `self.get_marked() or self.get_selected()` idiom.
The results of `get_marked` and `get_selected` are inputs; a Python list is
falsy exactly when it is empty. -/

/-- Python `self.get_marked() or self.get_selected()`. -/
def markedOrSelected (marked selected : List String) : List String :=
  if marked = [] then selected else marked

namespace DiredDeleteCommand

/-- Target resolution of `DiredDeleteCommand.run` (src/dired.py:294). -/
def targets (marked selected : List String) : List String :=
  markedOrSelected marked selected

end DiredDeleteCommand

namespace DiredQuickLookCommand

/-- Target resolution of `DiredQuickLookCommand.run` (src/dired.py:455). -/
def targets (marked selected : List String) : List String :=
  markedOrSelected marked selected

end DiredQuickLookCommand

namespace DiredOpenInNewWindowCommand

/-- Target resolution of `DiredOpenInNewWindowCommand.run` (src/dired.py:482). -/
def targets (marked selected : List String) : List String :=
  markedOrSelected marked selected

end DiredOpenInNewWindowCommand

namespace DiredMoveCommand

/-- Target resolution of `DiredMoveCommand._move` (src/dired.py:325 and 335). -/
def targets (marked selected : List String) : List String :=
  markedOrSelected marked selected

/-- Result of `DiredMoveCommand._move`: the early return on `path == self.path`,
the invalid-destination error, or the list of `shutil.move(fqn, path)` calls
performed. -/
inductive MoveResult
  | noop
  | notADirectory (dest : String)
  | moved (ops : List (String × String))
deriving DecidableEq

/-- Body of `DiredMoveCommand._move` (src/dired.py:321-341). `isdir` is the
filesystem directory test and `normpath` the `os.path.normpath` primitive;
`marked` and `selected` are the results of `get_marked` and `get_selected`
(computed identically at lines 325 and 335). -/
def move (isdir : String → Bool) (normpath : String → String)
    (viewPath : String) (marked selected : List String) (path : String) :
    MoveResult :=
  if path = viewPath then .noop
  else
    let path1 := if isabs path then path else pjoin viewPath path
    if ¬ isdir path1 then .notADirectory path1
    else
      let files := targets marked selected
      let dest := normpath (normcase path1)
      .moved (files.filterMap fun filename =>
        let fqn := normpath (normcase (pjoin viewPath filename))
        if fqn ≠ dest then some (fqn, dest) else none)

end DiredMoveCommand

/-! Mark by extension. -/

namespace DiredMarkExtensionCommand

/-- The predicate `_markfunc` of `DiredMarkExtensionCommand.run`
(src/dired.py:239-240): Python `filename.endswith(ext) and True or oldmark`,
whose value is `endswith(ext) ∨ oldmark`. -/
def markfunc (ext : String) (oldmark : Bool) (filename : String) : Bool :=
  (pyEndsWith filename ext && true) || oldmark

end DiredMarkExtensionCommand

/-- Modelled from the spec: `DiredBaseCommand._mark` lives in `common.py`,
which is not among the sources; per the MarkStore contract it computes, for
each target line mapped to a name, `predicate(oldMarkedState, name)` and sets
the marked state accordingly. A line is modelled as a name paired with its
old marked state. -/
def applyMark (pred : Bool → String → Bool) (lines : List (String × Bool)) :
    List (String × Bool) :=
  lines.map fun l => (l.1, pred l.2 l.1)

/-! Create file / create directory. -/

namespace DiredCreateCommand

/-- Result of `DiredCreateCommand._on_done`: blank input returns with no
effect and no refresh; an existing target aborts with the already-exists
error; otherwise `os.makedirs` (directory, including missing intermediate
directories) or `open(fqn, 'wb')` (empty file) runs and the view refreshes. -/
inductive CreateResult
  | blank
  | alreadyExists (fqn : String)
  | createdFile (fqn : String)
  | createdDir (fqn : String)
deriving DecidableEq

/-- Body of `DiredCreateCommand._on_done` (src/dired.py:209-224).
`pathExists` is the `os.path.exists` primitive; `which` is the Python string
`'file'` or `'directory'`. -/
def onDone (pathExists : String → Bool) (viewPath which value : String) :
    CreateResult :=
  let value1 := pyStrip value
  if value1 = "" then .blank
  else
    let fqn := pjoin viewPath value1
    if pathExists fqn then .alreadyExists fqn
    else if which = "directory" then .createdDir fqn
    else .createdFile fqn

end DiredCreateCommand

/-! The rename-commit engine of `DiredRenameCommitCommand.run`
(src/dired.py:374-424). The view directory is modelled as an association
list from entry name to a file identity, positions preserved by renames. -/

/-- Contents of the view directory: each entry name paired with the identity
of the file it denotes. -/
abbrev Fs := List (String × Nat)

namespace DiredRenameCommitCommand

/-- Effect of `os.rename(join(path, b), join(path, a))` inside the view
directory: the entry named `b` is now named `a`. -/
def osRename (fs : Fs) (b a : String) : Fs :=
  fs.map fun e => if e.1 = b then (a, e.2) else e

/-- Name allocated by `tempfile.NamedTemporaryFile(delete=False, dir=path)`
followed by `os.unlink(tmp)`: a fresh name in the view directory, reserved
and immediately released so only the name remains. Per the spec the name is
guaranteed not to collide; this is modelled by producing a string strictly
longer than every name in `avoid` (the live names together with the edited
name list). -/
def tmpName (avoid : List String) : String :=
  ⟨List.replicate ((avoid.map String.length).sum + 1) 'a'⟩

lemma length_tmpName (avoid : List String) :
    (tmpName avoid).length = (avoid.map String.length).sum + 1 := by
  simp [tmpName, String.length]

lemma tmpName_not_mem (avoid : List String) : tmpName avoid ∉ avoid := by
  intro hmem
  have hle : (tmpName avoid).length ≤ (avoid.map String.length).sum :=
    List.single_le_sum (fun x _ => Nat.zero_le x) _
      (List.mem_map_of_mem String.length hmem)
  rw [length_tmpName] at hle
  omega

/-- The work-queue loop of `DiredRenameCommitCommand.run`
(src/dired.py:402-416), with explicit fuel standing in for the Python
`while diffs` loop. State: the queue of `(b, a)` pairs, the live name set
`existing`, the directory contents, the log of performed `os.rename` calls,
and the count of temporary-name hops taken in the deferral branch. Returns
`none` when the fuel runs out before the queue empties. -/
def renameLoop (after : List String) :
    Nat → List (String × String) → List String → Fs →
    List (String × String) → Nat →
    Option (List String × Fs × List (String × String) × Nat)
  | _, [], existing, fs, log, hops => some (existing, fs, log, hops)
  | 0, _ :: _, _, _, _, _ => none
  | fuel + 1, (b, a) :: diffs, existing, fs, log, hops =>
    if a ∈ existing then
      let tmp := tmpName (existing ++ after)
      renameLoop after fuel (diffs ++ [(tmp, a)]) (tmp :: existing.erase b)
        (osRename fs b tmp) (log ++ [(b, tmp)]) (hops + 1)
    else
      renameLoop after fuel diffs (a :: existing.erase b) (osRename fs b a)
        (log ++ [(b, a)]) hops

/-- Result of a rename commit: the two validation errors, fuel exhaustion of
the modelled loop (shown unreachable under the directory invariants), or
success with the final directory contents, the rename log and the number of
temporary-name hops. -/
inductive CommitResult
  | lineCountError
  | duplicateError
  | exhausted
  | ok (fs : Fs) (log : List (String × String)) (hops : Nat)
deriving DecidableEq

/-- Validation and rename phase of `DiredRenameCommitCommand.run`
(src/dired.py:391-416): the line-count check, the duplicate check via the
cardinality of the name set, the index-paired diff list, and the work-queue
loop run with `existing` initialised to the set of baseline names. Fuel
`2 * diffs.length` is sufficient, as proved below. -/
def commit (before after : List String) (fs : Fs) : CommitResult :=
  if after.length ≠ before.length then .lineCountError
  else if after.dedup.length ≠ after.length then .duplicateError
  else
    let diffs := (before.zip after).filter fun p => decide (p.1 ≠ p.2)
    if diffs.isEmpty then .ok fs [] 0
    else
      match renameLoop after (2 * diffs.length) diffs before.dedup fs [] 0 with
      | some (_, fs1, log, hops) => .ok fs1 log hops
      | none => .exhausted

/-- The rename-mode state a view carries: the `rename` setting holding the
baseline (absent outside rename mode), the `dired_rename_mode` flag and the
directory contents. -/
structure ViewState where
  rename : Option (List String)
  renameMode : Bool
  fs : Fs
deriving DecidableEq

/-- Observable outcome of one run of the commit command. -/
inductive Outcome
  | refreshOnly
  | lineCountError
  | duplicateError
  | exhausted
  | committed (log : List (String × String)) (hops : Nat)
deriving DecidableEq

/-- Whole-command behaviour of `DiredRenameCommitCommand.run`
(src/dired.py:375-424): a missing baseline only refreshes; a validation
error returns with the view state untouched and no refresh; success applies
the renames, erases the baseline, leaves rename mode and refreshes. The
third component reports whether `dired_refresh` ran. -/
def runCommit (v : ViewState) (after : List String) :
    ViewState × Outcome × Bool :=
  match v.rename with
  | none => (v, .refreshOnly, true)
  | some before =>
    match commit before after v.fs with
    | .lineCountError => (v, .lineCountError, false)
    | .duplicateError => (v, .duplicateError, false)
    | .exhausted => (v, .exhausted, false)
    | .ok fs1 log hops =>
      (⟨none, false, fs1⟩, .committed log hops, true)

end DiredRenameCommitCommand

/-! Shared list facts for the rename-commit theorems. -/

lemma dedup_length_eq_iff (l : List String) :
    l.dedup.length = l.length ↔ l.Nodup := by
  constructor
  · intro h
    have heq : l.dedup = l := (List.dedup_sublist l).eq_of_length h
    rw [← heq]
    exact List.nodup_dedup l
  · intro h
    rw [List.dedup_eq_self.mpr h]

lemma zip_self_filter_ne (l : List String) :
    (l.zip l).filter (fun p => decide (p.1 ≠ p.2)) = [] := by
  induction l with
  | nil => rfl
  | cons a rest ih => simpa using ih

/-! Theorems about the directory listing. -/

namespace DiredRefreshCommand

lemma dirLines_eq (children : List (String × Bool)) :
    dirLines children = (children.filter fun c => c.2).map
      (fun c => "▸ " ++ c.1 ++ osSep) := by
  induction children with
  | nil => rfl
  | cons c rest ih =>
    obtain ⟨name, d⟩ := c
    cases d <;> simp [dirLines, ih]

lemma fileLines_eq (children : List (String × Bool)) :
    fileLines children = (children.filter fun c => !c.2).map
      (fun c => "≡ " ++ c.1) := by
  induction children with
  | nil => rfl
  | cons c rest ih =>
    obtain ⟨name, d⟩ := c
    cases d <;> simp [fileLines, ih]

lemma length_dirLines_add_fileLines (children : List (String × Bool)) :
    (dirLines children).length + (fileLines children).length = children.length := by
  induction children with
  | nil => rfl
  | cons c rest ih =>
    obtain ⟨name, d⟩ := c
    cases d <;> simp [dirLines, fileLines] <;> omega

end DiredRefreshCommand

/-- C3. Directory listing order and completeness: the rendered entry lines are
all child directories (prefixed with the directory marker and suffixed with
the path separator) in enumeration order, followed by all child files
(prefixed with the file marker) in enumeration order, and the number of
rendered entry lines equals the number of children. -/
theorem refresh_listing_order_and_count (children : List (String × Bool)) :
    DiredRefreshCommand.entryLines children =
      ((children.filter fun c => c.2).map fun c => "▸ " ++ c.1 ++ osSep) ++
      ((children.filter fun c => !c.2).map fun c => "≡ " ++ c.1) ∧
    (DiredRefreshCommand.entryLines children).length = children.length := by
  refine ⟨?_, ?_⟩
  · rw [DiredRefreshCommand.entryLines, DiredRefreshCommand.dirLines_eq,
      DiredRefreshCommand.fileLines_eq]
  · rw [DiredRefreshCommand.entryLines, List.length_append,
      DiredRefreshCommand.length_dirLines_add_fileLines]

/-- C4. Target resolution precedence: delete, move, quick-look and
open-in-new-window all resolve their targets as the marked set when it is
non-empty, and only otherwise fall back to the selected names. -/
theorem targets_marked_precedence (marked selected : List String) :
    (marked ≠ [] →
      DiredDeleteCommand.targets marked selected = marked ∧
      DiredMoveCommand.targets marked selected = marked ∧
      DiredQuickLookCommand.targets marked selected = marked ∧
      DiredOpenInNewWindowCommand.targets marked selected = marked) ∧
    (marked = [] →
      DiredDeleteCommand.targets marked selected = selected ∧
      DiredMoveCommand.targets marked selected = selected ∧
      DiredQuickLookCommand.targets marked selected = selected ∧
      DiredOpenInNewWindowCommand.targets marked selected = selected) := by
  constructor <;> intro h <;>
    simp [DiredDeleteCommand.targets, DiredMoveCommand.targets,
      DiredQuickLookCommand.targets, DiredOpenInNewWindowCommand.targets,
      markedOrSelected, h]

/-- Closed instance of the target-resolution theorem. -/
theorem targets_marked_precedence_witness :
    DiredDeleteCommand.targets ["a"] ["b"] = ["a"] ∧
    DiredQuickLookCommand.targets [] ["b"] = ["b"] :=
  ⟨((targets_marked_precedence ["a"] ["b"]).1 (by decide)).1,
   (((targets_marked_precedence [] ["b"]).2 rfl).2).2.1⟩

/-- C5. Move destination precondition: when the destination, after resolving a
relative path against the view directory, is not an existing directory, the
move aborts with the not-a-directory error (performing no `shutil.move`). -/
theorem move_rejects_non_directory (isdir : String → Bool)
    (normpath : String → String) (viewPath : String)
    (marked selected : List String) (path : String)
    (hne : path ≠ viewPath)
    (hdir : isdir (if isabs path then path else pjoin viewPath path) = false) :
    DiredMoveCommand.move isdir normpath viewPath marked selected path =
      .notADirectory (if isabs path then path else pjoin viewPath path) := by
  rw [DiredMoveCommand.move, if_neg hne]
  simp [hdir]

/-- Closed instance of the move-destination theorem. -/
theorem move_rejects_non_directory_witness :
    DiredMoveCommand.move (fun _ => false) (fun s => s) "/a" [] [] "b" =
      .notADirectory "/a/b" := by
  have h := move_rejects_non_directory (fun _ => false) (fun s => s) "/a" [] []
    "b" (by decide) rfl
  simpa using h

/-- C6. Move self-skip: under a valid destination, every targeted name whose
normalized full path equals the normalized destination is skipped (no move
operation has it as source), while every other targeted name is passed to the
filesystem move primitive with the normalized destination. -/
theorem move_self_skip (isdir : String → Bool) (normpath : String → String)
    (viewPath : String) (marked selected : List String) (path : String)
    (hne : path ≠ viewPath)
    (hdir : isdir (if isabs path then path else pjoin viewPath path) = true) :
    ∃ ops,
      DiredMoveCommand.move isdir normpath viewPath marked selected path =
        .moved ops ∧
      ∀ f ∈ DiredMoveCommand.targets marked selected,
        (normpath (normcase (pjoin viewPath f)) =
            normpath (normcase (if isabs path then path else pjoin viewPath path)) →
          ∀ d, (normpath (normcase (pjoin viewPath f)), d) ∉ ops) ∧
        (normpath (normcase (pjoin viewPath f)) ≠
            normpath (normcase (if isabs path then path else pjoin viewPath path)) →
          (normpath (normcase (pjoin viewPath f)),
            normpath (normcase (if isabs path then path else pjoin viewPath path))) ∈ ops) := by
  rw [DiredMoveCommand.move, if_neg hne]
  simp only [hdir, not_true_eq_false, if_false]
  refine ⟨_, rfl, ?_⟩
  intro f hf
  constructor
  · intro heq d hd
    rcases List.mem_filterMap.mp hd with ⟨g, _, hg⟩
    by_cases hgd : normpath (normcase (pjoin viewPath g)) =
        normpath (normcase (if isabs path then path else pjoin viewPath path))
    · rw [if_neg (by simpa using hgd)] at hg
      exact Option.noConfusion hg
    · rw [if_pos (by simpa using hgd)] at hg
      have := congrArg (fun o => o.map Prod.fst) hg
      simp at this
      exact hgd (this.trans heq)
  · intro hne2
    exact List.mem_filterMap.mpr ⟨f, hf, by rw [if_pos (by simpa using hne2)]⟩

/-- Closed instance of the move self-skip theorem: moving `b` and `c` from
`/a` to destination `b` skips `b` itself and moves `c`. -/
theorem move_self_skip_witness :
    ∃ ops,
      DiredMoveCommand.move (fun _ => true) (fun s => s) "/a" ["b", "c"] [] "b" =
        .moved ops ∧
      ∀ f ∈ DiredMoveCommand.targets ["b", "c"] [],
        ((fun s => s) (normcase (pjoin "/a" f)) =
            (fun s => s) (normcase (if isabs "b" then "b" else pjoin "/a" "b")) →
          ∀ d, ((fun s => s) (normcase (pjoin "/a" f)), d) ∉ ops) ∧
        ((fun s => s) (normcase (pjoin "/a" f)) ≠
            (fun s => s) (normcase (if isabs "b" then "b" else pjoin "/a" "b")) →
          ((fun s => s) (normcase (pjoin "/a" f)),
            (fun s => s) (normcase (if isabs "b" then "b" else pjoin "/a" "b"))) ∈ ops) :=
  move_self_skip (fun _ => true) (fun s => s) "/a" ["b", "c"] [] "b"
    (by decide) rfl

/-- C7 counterexample: an already-marked name that does not end with the
given suffix stays marked after the extension-filter mark operation, so the
final marked state is not equal to the ends-with predicate. -/
theorem mark_extension_keeps_old_marks :
    applyMark (DiredMarkExtensionCommand.markfunc ".py") [("a.txt", true)] =
      [("a.txt", true)] ∧
    pyEndsWith "a.txt" ".py" = false := by
  constructor
  · rfl
  · decide

/-- C7 amended: after the extension-filter mark operation, a name is marked
if and only if it was already marked or it ends with the given suffix; the
operation adds marks and never removes one. -/
theorem mark_extension_or_old (ext : String) (lines : List (String × Bool)) :
    applyMark (DiredMarkExtensionCommand.markfunc ext) lines =
      lines.map fun l => (l.1, l.2 || pyEndsWith l.1 ext) := by
  simp [applyMark, DiredMarkExtensionCommand.markfunc, Bool.or_comm]

/-- C8. Create precondition: with a non-blank name, an existing target path
aborts with the already-exists error and creates nothing; otherwise kind
`directory` creates a directory (with missing intermediate directories, via
`os.makedirs`) and kind `file` creates an empty file. -/
theorem create_precondition (pathExists : String → Bool)
    (viewPath which value : String) (hval : pyStrip value ≠ "") :
    (pathExists (pjoin viewPath (pyStrip value)) = true →
      DiredCreateCommand.onDone pathExists viewPath which value =
        .alreadyExists (pjoin viewPath (pyStrip value))) ∧
    (pathExists (pjoin viewPath (pyStrip value)) = false →
      (which = "directory" →
        DiredCreateCommand.onDone pathExists viewPath which value =
          .createdDir (pjoin viewPath (pyStrip value))) ∧
      (which = "file" →
        DiredCreateCommand.onDone pathExists viewPath which value =
          .createdFile (pjoin viewPath (pyStrip value)))) := by
  refine ⟨fun hex => ?_, fun hex => ⟨fun hw => ?_, fun hw => ?_⟩⟩
  · simp [DiredCreateCommand.onDone, hval, hex]
  · simp [DiredCreateCommand.onDone, hval, hex, hw]
  · subst hw
    simp [DiredCreateCommand.onDone, hval, hex]

/-- Closed instance of the create-precondition theorem. -/
theorem create_precondition_witness :
    DiredCreateCommand.onDone (fun _ => true) "/a" "file" " x " =
      .alreadyExists (pjoin "/a" (pyStrip " x ")) ∧
    DiredCreateCommand.onDone (fun _ => false) "/a" "directory" "x" =
      .createdDir (pjoin "/a" (pyStrip "x")) :=
  ⟨(create_precondition (fun _ => true) "/a" "file" " x " (by decide)).1 rfl,
   ((create_precondition (fun _ => false) "/a" "directory" "x"
      (by decide)).2 rfl).1 rfl⟩

/-- C10. Create with blank input is a no-op: a name that is empty after
stripping whitespace makes the operation return with no filesystem effect,
no error and no refresh. -/
theorem create_blank_is_noop (pathExists : String → Bool)
    (viewPath which value : String) (hval : pyStrip value = "") :
    DiredCreateCommand.onDone pathExists viewPath which value = .blank := by
  simp [DiredCreateCommand.onDone, hval]

/-- Closed instance of the blank-input theorem. -/
theorem create_blank_is_noop_witness :
    DiredCreateCommand.onDone (fun _ => true) "/a" "file" "   " = .blank :=
  create_blank_is_noop (fun _ => true) "/a" "file" "   " (by decide)

/-! Ghost state for verifying the rename work-queue loop. Each directory
entry keeps its list position through renames, so the loop is tracked by a
list of cells carrying the baseline name, the target name, the file identity
and the current rename status of the position. -/

namespace RenameProof

open DiredRenameCommitCommand

/-- Rename status of one entry position during the loop. -/
inductive St
  | untouched
  | parked (t : String)
  | done

/-- Ghost view of one entry position: status, baseline name `b`, target name
`a` and file identity. -/
structure Cell where
  st : St
  b : String
  a : String
  id : Nat

/-- The name currently occupied by an entry position. -/
def cur (c : Cell) : String :=
  match c.st with
  | .untouched => c.b
  | .parked t => t
  | .done => c.a

/-- Current names, in position order. -/
def curNames (L : List Cell) : List String := L.map cur

/-- Current directory contents. -/
def fsOf (L : List Cell) : Fs := L.map fun c => (cur c, c.id)

/-- Directory contents once every position has reached its target. -/
def finalFs (L : List Cell) : Fs := L.map fun c => (c.a, c.id)

/-- Pending original diff pairs: the untouched positions whose baseline and
target names differ, in position order. -/
def restDiffs (L : List Cell) : List (String × String) :=
  L.filterMap fun c =>
    match c.st with
    | .untouched => if c.b ≠ c.a then some (c.b, c.a) else none
    | _ => none

/-- Deferred pairs: the parked positions, each paired as (temporary name,
target name), in position order. -/
def parkedPairs (L : List Cell) : List (String × String) :=
  L.filterMap fun c =>
    match c.st with
    | .parked t => some (t, c.a)
    | _ => none

/-- Invariant tying the loop state to the ghost cells: the targets are the
edited list, current names are distinct, `existing` is the set of current
names, the directory holds each position at its current name, and parked
temporary names collide with no target. -/
structure Inv (after : List String) (L : List Cell) (ex : List String)
    (fs : Fs) : Prop where
  targets : L.map Cell.a = after
  nodupAfter : after.Nodup
  nodupCur : (curNames L).Nodup
  exIff : ∀ s, s ∈ ex ↔ s ∈ curNames L
  exNodup : ex.Nodup
  fsEq : fs = fsOf L
  parkedNotAfter : ∀ p ∈ parkedPairs L, p.1 ∉ after

lemma curNames_append (L₁ L₂ : List Cell) :
    curNames (L₁ ++ L₂) = curNames L₁ ++ curNames L₂ := by
  simp [curNames]

lemma curNames_cons (c : Cell) (L : List Cell) :
    curNames (c :: L) = cur c :: curNames L := rfl

lemma restDiffs_append (L₁ L₂ : List Cell) :
    restDiffs (L₁ ++ L₂) = restDiffs L₁ ++ restDiffs L₂ := by
  simp [restDiffs]

lemma parkedPairs_append (L₁ L₂ : List Cell) :
    parkedPairs (L₁ ++ L₂) = parkedPairs L₁ ++ parkedPairs L₂ := by
  simp [parkedPairs]

lemma nodup_middle_replace {xs zs : List String} {y w : String}
    (h : (xs ++ y :: zs).Nodup) (hw : w ∉ xs ++ y :: zs) :
    (xs ++ w :: zs).Nodup := by
  rw [List.nodup_middle, List.nodup_cons] at h ⊢
  refine ⟨fun hmem => hw ?_, h.2⟩
  simp only [List.mem_append, List.mem_cons] at hmem ⊢
  tauto

lemma mem_middle_iff {xs zs : List String} {y w s : String}
    (hy : y ∉ xs) (hy2 : y ∉ zs) :
    s ∈ xs ++ w :: zs ↔ s = w ∨ (s ∈ xs ++ y :: zs ∧ s ≠ y) := by
  simp only [List.mem_append, List.mem_cons]
  constructor
  · rintro (hx | hw | hz)
    · exact Or.inr ⟨Or.inl hx, fun he => hy (he ▸ hx)⟩
    · exact Or.inl hw
    · exact Or.inr ⟨Or.inr (Or.inr hz), fun he => hy2 (he ▸ hz)⟩
  · rintro (he | ⟨hx | he | hz, hne⟩)
    · exact Or.inr (Or.inl he)
    · exact Or.inl hx
    · exact absurd he hne
    · exact Or.inr (Or.inr hz)

lemma osRename_fsOf (L₁ : List Cell) (c : Cell) (L₂ : List Cell) (c' : Cell)
    (hnd : (curNames (L₁ ++ c :: L₂)).Nodup) (hid : c'.id = c.id) :
    osRename (fsOf (L₁ ++ c :: L₂)) (cur c) (cur c') =
      fsOf (L₁ ++ c' :: L₂) := by
  have hc1 : cur c ∉ curNames L₁ ∧ cur c ∉ curNames L₂ := by
    rw [curNames_append, curNames_cons] at hnd
    rw [List.nodup_middle, List.nodup_cons] at hnd
    constructor <;> intro hmem <;>
      exact hnd.1 (by simp only [List.mem_append]; tauto)
  simp only [fsOf, osRename, List.map_append, List.map_cons, List.map_map]
  congr 1
  · refine List.map_congr_left fun d hd => ?_
    have hne : cur d ≠ cur c := fun he =>
      hc1.1 (he ▸ List.mem_map_of_mem cur hd)
    simp [hne]
  · congr 1
    · simp [hid]
    · refine List.map_congr_left fun d hd => ?_
      have hne : cur d ≠ cur c := fun he =>
        hc1.2 (he ▸ List.mem_map_of_mem cur hd)
      simp [hne]

lemma restDiffs_cons_parked {c : Cell} {t : String} (h : c.st = .parked t)
    (L : List Cell) : restDiffs (c :: L) = restDiffs L := by
  simp [restDiffs, List.filterMap_cons, h]

lemma restDiffs_cons_done {c : Cell} (h : c.st = .done) (L : List Cell) :
    restDiffs (c :: L) = restDiffs L := by
  simp [restDiffs, List.filterMap_cons, h]

lemma restDiffs_cons_untouched_ne {c : Cell} (h : c.st = .untouched)
    (hne : c.b ≠ c.a) (L : List Cell) :
    restDiffs (c :: L) = (c.b, c.a) :: restDiffs L := by
  simp [restDiffs, List.filterMap_cons, h, hne]

lemma parkedPairs_cons_parked {c : Cell} {t : String} (h : c.st = .parked t)
    (L : List Cell) : parkedPairs (c :: L) = (t, c.a) :: parkedPairs L := by
  simp [parkedPairs, List.filterMap_cons, h]

lemma parkedPairs_cons_done {c : Cell} (h : c.st = .done) (L : List Cell) :
    parkedPairs (c :: L) = parkedPairs L := by
  simp [parkedPairs, List.filterMap_cons, h]

lemma parkedPairs_cons_untouched {c : Cell} (h : c.st = .untouched)
    (L : List Cell) : parkedPairs (c :: L) = parkedPairs L := by
  simp [parkedPairs, List.filterMap_cons, h]

lemma finalFs_replace (L₁ : List Cell) (c : Cell) (L₂ : List Cell) (c' : Cell)
    (ha : c'.a = c.a) (hid : c'.id = c.id) :
    finalFs (L₁ ++ c' :: L₂) = finalFs (L₁ ++ c :: L₂) := by
  simp [finalFs, ha, hid]

/-- Decomposition of a non-empty pending-diff list: the first pending diff
comes from a specific untouched position. -/
lemma restDiffs_eq_cons :
    ∀ {L : List Cell} {p : String × String} {r : List (String × String)},
      restDiffs L = p :: r →
      ∃ L₁ c L₂, L = L₁ ++ c :: L₂ ∧ restDiffs L₁ = [] ∧
        c.st = St.untouched ∧ c.b = p.1 ∧ c.a = p.2 ∧ c.b ≠ c.a ∧
        r = restDiffs L₂ := by
  intro L
  induction L with
  | nil => intro p r h; simp [restDiffs] at h
  | cons c L ih =>
    intro p r h
    by_cases hst : c.st = St.untouched
    · by_cases hne : c.b ≠ c.a
      · rw [restDiffs_cons_untouched_ne hst hne] at h
        injection h with h1 h2
        exact ⟨[], c, L, rfl, rfl, hst, by rw [← h1], by rw [← h1], hne,
          h2.symm⟩
      · have hbeq : c.b = c.a := not_not.mp hne
        have hre : restDiffs (c :: L) = restDiffs L := by
          simp [restDiffs, List.filterMap_cons, hst, hbeq]
        rw [hre] at h
        obtain ⟨L₁, d, L₂, hL, h1, h2, h3, h4, h5, h6⟩ := ih h
        refine ⟨c :: L₁, d, L₂, by simp [hL], ?_, h2, h3, h4, h5, h6⟩
        rw [show restDiffs (c :: L₁) = restDiffs L₁ from by
          simp [restDiffs, List.filterMap_cons, hst, hbeq]]
        exact h1
    · cases hs : c.st with
      | untouched => exact absurd hs hst
      | parked t =>
        rw [restDiffs_cons_parked hs] at h
        obtain ⟨L₁, d, L₂, hL, h1, h2, h3, h4, h5, h6⟩ := ih h
        refine ⟨c :: L₁, d, L₂, by simp [hL], ?_, h2, h3, h4, h5, h6⟩
        rw [restDiffs_cons_parked hs]
        exact h1
      | done =>
        rw [restDiffs_cons_done hs] at h
        obtain ⟨L₁, d, L₂, hL, h1, h2, h3, h4, h5, h6⟩ := ih h
        refine ⟨c :: L₁, d, L₂, by simp [hL], ?_, h2, h3, h4, h5, h6⟩
        rw [restDiffs_cons_done hs]
        exact h1

/-- Replacing the status of one position preserves the invariant, provided
the new current name is globally fresh and a parked replacement avoids the
targets. This is the shared step fact for both loop branches. -/
lemma inv_replace {after : List String} {L₁ L₂ : List Cell} {c : Cell}
    {ex : List String} {fs : Fs}
    (hInv : Inv after (L₁ ++ c :: L₂) ex fs) (c' : Cell)
    (ha : c'.a = c.a) (hid : c'.id = c.id)
    (hnew : cur c' ∉ curNames (L₁ ++ c :: L₂))
    (hpk : ∀ t, c'.st = St.parked t → t ∉ after) :
    Inv after (L₁ ++ c' :: L₂) (cur c' :: ex.erase (cur c))
      (osRename fs (cur c) (cur c')) := by
  have hcmid : cur c ∉ curNames L₁ ∧ cur c ∉ curNames L₂ := by
    have hnd := hInv.nodupCur
    rw [curNames_append, curNames_cons, List.nodup_middle,
      List.nodup_cons] at hnd
    constructor <;> intro hmem <;>
      exact hnd.1 (by simp only [List.mem_append]; tauto)
  refine ⟨?_, hInv.nodupAfter, ?_, ?_, ?_, ?_, ?_⟩
  · have htg := hInv.targets
    simp only [List.map_append, List.map_cons] at htg ⊢
    rw [ha]
    exact htg
  · have hnd := hInv.nodupCur
    rw [curNames_append, curNames_cons] at hnd ⊢
    refine nodup_middle_replace hnd ?_
    rw [curNames_append, curNames_cons] at hnew
    exact hnew
  · intro s
    have hmm := mem_middle_iff (y := cur c) (w := cur c') (s := s)
      hcmid.1 hcmid.2
    rw [curNames_append, curNames_cons, List.mem_cons]
    constructor
    · rintro (he | hmem)
      · exact hmm.mpr (Or.inl he)
      · have h2 := (hInv.exNodup.mem_erase_iff).mp hmem
        have h3 : s ∈ curNames (L₁ ++ c :: L₂) := (hInv.exIff s).mp h2.2
        rw [curNames_append, curNames_cons] at h3
        exact hmm.mpr (Or.inr ⟨h3, h2.1⟩)
    · intro hmem
      rcases hmm.mp hmem with he | ⟨hmem2, hne⟩
      · exact Or.inl he
      · refine Or.inr (hInv.exNodup.mem_erase_iff.mpr ⟨hne, ?_⟩)
        refine (hInv.exIff s).mpr ?_
        rw [curNames_append, curNames_cons]
        exact hmem2
  · rw [List.nodup_cons]
    refine ⟨fun hmem => ?_, hInv.exNodup.erase _⟩
    exact hnew ((hInv.exIff _).mp (List.mem_of_mem_erase hmem))
  · rw [hInv.fsEq]
    exact osRename_fsOf L₁ c L₂ c' hInv.nodupCur hid
  · intro p hp
    rcases List.mem_filterMap.mp hp with ⟨d, hd, hfd⟩
    rcases List.mem_append.mp hd with hd1 | hd2
    · exact hInv.parkedNotAfter p
        (List.mem_filterMap.mpr ⟨d, List.mem_append.mpr (Or.inl hd1), hfd⟩)
    · rcases List.mem_cons.mp hd2 with he | hd3
      · subst he
        cases hst : d.st with
        | untouched => rw [hst] at hfd; simp at hfd
        | done => rw [hst] at hfd; simp at hfd
        | parked t =>
          rw [hst] at hfd
          simp only [Option.some.injEq] at hfd
          rw [← hfd]
          exact hpk t hst
      · exact hInv.parkedNotAfter p (List.mem_filterMap.mpr
          ⟨d, List.mem_append.mpr (Or.inr (List.mem_cons_of_mem c hd3)), hfd⟩)

/-- Every cell of the final phase holds its target name. -/
lemma fsOf_eq_finalFs {L : List Cell} (hrest : restDiffs L = [])
    (hparked : parkedPairs L = []) : fsOf L = finalFs L := by
  refine List.map_congr_left fun c hc => ?_
  have hcur : cur c = c.a := by
    cases hst : c.st with
    | done => simp [cur, hst]
    | untouched =>
      have h0 := List.filterMap_eq_nil_iff.mp hrest c hc
      rw [hst] at h0
      simp only [ite_eq_right_iff, reduceCtorEq, imp_false, not_not] at h0
      simp [cur, hst, h0]
    | parked t =>
      have h0 := List.filterMap_eq_nil_iff.mp hparked c hc
      rw [hst] at h0
      simp at h0
  rw [hcur]

/-- Second phase: once no original diff is pending, every deferred pair
resolves directly, one fuel unit per pair, performing no further
temporary-name hop. -/
lemma phase2 : ∀ (n : Nat) (after : List String) (L : List Cell)
    (D : List (String × String)) (ex : List String) (fs : Fs)
    (log : List (String × String)) (hops fuel : Nat),
    D.length = n → Inv after L ex fs → restDiffs L = [] →
    D.Perm (parkedPairs L) → n ≤ fuel →
    ∃ ex1 log1,
      renameLoop after fuel D ex fs log hops =
        some (ex1, finalFs L, log1, hops) := by
  intro n
  induction n with
  | zero =>
    intro after L D ex fs log hops fuel hlen hInv hrest hperm hfuel
    have hD : D = [] := List.length_eq_zero.mp hlen
    subst hD
    have hparked : parkedPairs L = [] := hperm.symm.eq_nil
    refine ⟨ex, log, ?_⟩
    simp only [renameLoop]
    rw [hInv.fsEq, fsOf_eq_finalFs hrest hparked]
  | succ n ih =>
    intro after L D ex fs log hops fuel hlen hInv hrest hperm hfuel
    cases D with
    | nil => simp at hlen
    | cons p D₁ =>
      obtain ⟨t, a⟩ := p
      have hmem : (t, a) ∈ parkedPairs L :=
        hperm.mem_iff.mp (List.mem_cons_self _ _)
      rcases List.mem_filterMap.mp hmem with ⟨c, hcL, hfc⟩
      have hca : c.st = St.parked t ∧ c.a = a := by
        cases hst : c.st with
        | untouched => rw [hst] at hfc; simp at hfc
        | done => rw [hst] at hfc; simp at hfc
        | parked t2 =>
          rw [hst] at hfc
          simp only [Option.some.injEq, Prod.mk.injEq] at hfc
          exact ⟨by rw [← hfc.1], hfc.2⟩
      obtain ⟨L₁, L₂, hL⟩ := List.append_of_mem hcL
      subst hL
      have hin_after : a ∈ after := by
        rw [← hInv.targets]
        exact hca.2 ▸ List.mem_map_of_mem Cell.a hcL
      have hanot : a ∉ curNames (L₁ ++ c :: L₂) := by
        intro hmem2
        rcases List.mem_map.mp hmem2 with ⟨d, hdL, hcurd⟩
        have htargets : ((L₁ ++ c :: L₂).map Cell.a).Nodup :=
          hInv.targets.symm ▸ hInv.nodupAfter
        cases hstd : d.st with
        | parked t2 =>
          have hd_pk : (t2, d.a) ∈ parkedPairs (L₁ ++ c :: L₂) :=
            List.mem_filterMap.mpr ⟨d, hdL, by rw [hstd]⟩
          have ht2not : t2 ∉ after := hInv.parkedNotAfter _ hd_pk
          have ht2 : t2 = a := by rw [← hcurd]; simp [cur, hstd]
          exact ht2not (ht2 ▸ hin_after)
        | done =>
          have hda : d.a = a := by rw [← hcurd]; simp [cur, hstd]
          have hdc : d = c := List.inj_on_of_nodup_map htargets hdL hcL
            (by rw [hda, hca.2])
          rw [hdc] at hstd
          exact St.noConfusion (hca.1.symm.trans hstd)
        | untouched =>
          have h0 := List.filterMap_eq_nil_iff.mp hrest d hdL
          rw [hstd] at h0
          simp only [ite_eq_right_iff, reduceCtorEq, imp_false, not_not] at h0
          have hda : d.a = a := by rw [← hcurd]; simp [cur, hstd, ← h0]
          have hdc : d = c := List.inj_on_of_nodup_map htargets hdL hcL
            (by rw [hda, hca.2])
          rw [hdc] at hstd
          exact St.noConfusion (hca.1.symm.trans hstd)
      have hanotex : a ∉ ex := fun hx => hanot ((hInv.exIff a).mp hx)
      cases fuel with
      | zero => omega
      | succ f =>
        have hcurc : cur c = t := by simp [cur, hca.1]
        have hc'cur : cur (⟨St.done, c.b, c.a, c.id⟩ : Cell) = a := by
          simp [cur, hca.2]
        have hinv2 := inv_replace hInv ⟨St.done, c.b, c.a, c.id⟩ rfl rfl
          (by rw [hc'cur]; exact hanot) (fun t2 ht2 => by simp at ht2)
        rw [hcurc, hc'cur] at hinv2
        have hrests := List.append_eq_nil.mp (by
          rw [← restDiffs_append]; exact hrest)
        have hrest2 : restDiffs L₂ = [] := by
          rw [restDiffs_cons_parked hca.1] at hrests
          exact hrests.2
        have hrest' : restDiffs (L₁ ++ (⟨St.done, c.b, c.a, c.id⟩ : Cell) :: L₂) = [] := by
          rw [restDiffs_append, restDiffs_cons_done rfl, hrests.1, hrest2]
          rfl
        have hpkL : parkedPairs (L₁ ++ c :: L₂) =
            parkedPairs L₁ ++ (t, a) :: parkedPairs L₂ := by
          rw [parkedPairs_append, parkedPairs_cons_parked hca.1, hca.2]
        have hperm' : D₁.Perm
            (parkedPairs (L₁ ++ (⟨St.done, c.b, c.a, c.id⟩ : Cell) :: L₂)) := by
          rw [parkedPairs_append, parkedPairs_cons_done rfl]
          refine List.Perm.cons_inv (a := (t, a)) ?_
          refine (hperm.trans ?_)
          rw [hpkL]
          exact List.perm_middle
        obtain ⟨ex1, log1, hrun⟩ := ih after
          (L₁ ++ (⟨St.done, c.b, c.a, c.id⟩ : Cell) :: L₂) D₁
          (a :: ex.erase t) (osRename fs t a) (log ++ [(t, a)]) hops f
          (Nat.succ.inj hlen) hinv2 hrest' hperm'
          (Nat.succ_le_succ_iff.mp hfuel)
        rw [finalFs_replace L₁ c L₂ ⟨St.done, c.b, c.a, c.id⟩ rfl rfl] at hrun
        refine ⟨ex1, log1, ?_⟩
        simp only [renameLoop]
        rw [if_neg hanotex]
        exact hrun

/-- First phase: pending original diffs are consumed front to back; each one
either resolves directly or takes exactly one temporary-name hop, so the
whole run ends at the target directory contents with at most one hop per
pending diff. -/
lemma phase1 : ∀ (n : Nat) (after : List String) (L : List Cell)
    (D : List (String × String)) (ex : List String) (fs : Fs)
    (log : List (String × String)) (hops fuel : Nat),
    (restDiffs L).length = n → Inv after L ex fs →
    D.Perm (parkedPairs L) → 2 * n + D.length ≤ fuel →
    ∃ ex1 log1 hops1,
      renameLoop after fuel (restDiffs L ++ D) ex fs log hops =
        some (ex1, finalFs L, log1, hops1) ∧ hops1 ≤ hops + n := by
  intro n
  induction n with
  | zero =>
    intro after L D ex fs log hops fuel hlen hInv hperm hfuel
    have hrest : restDiffs L = [] := List.length_eq_zero.mp hlen
    rw [hrest, List.nil_append]
    obtain ⟨ex1, log1, hrun⟩ := phase2 D.length after L D ex fs log hops fuel
      rfl hInv hrest hperm (by omega)
    exact ⟨ex1, log1, hops, hrun, by omega⟩
  | succ n ih =>
    intro after L D ex fs log hops fuel hlen hInv hperm hfuel
    cases hq : restDiffs L with
    | nil => rw [hq] at hlen; simp at hlen
    | cons p r =>
      obtain ⟨b, a⟩ := p
      obtain ⟨L₁, c, L₂, hL, hrd1, hst, hcb, hca, hbne, hr⟩ :=
        restDiffs_eq_cons hq
      subst hL
      have hcb2 : c.b = b := hcb
      have hca2 : c.a = a := hca
      have hlenr : r.length = n := by rw [hq] at hlen; simpa using hlen
      have hcurc : cur c = b := by
        have : cur c = c.b := by simp [cur, hst]
        rw [this, hcb2]
      cases fuel with
      | zero => omega
      | succ f =>
        by_cases hmem : a ∈ ex
        · -- deferral branch: one temporary hop
          simp only [List.cons_append, renameLoop]
          rw [if_pos hmem]
          set tmp := tmpName (ex ++ after) with htmp
          have htnot : tmp ∉ ex ∧ tmp ∉ after := by
            have hT := tmpName_not_mem (ex ++ after)
            rw [← htmp] at hT
            constructor <;> intro hx <;>
              [exact hT (List.mem_append.mpr (Or.inl hx));
               exact hT (List.mem_append.mpr (Or.inr hx))]
          have htnotcur : tmp ∉ curNames (L₁ ++ c :: L₂) :=
            fun hx => htnot.1 ((hInv.exIff tmp).mpr hx)
          have hc'cur : cur (⟨St.parked tmp, c.b, c.a, c.id⟩ : Cell) = tmp := by
            simp [cur]
          have hinv2 := inv_replace hInv ⟨St.parked tmp, c.b, c.a, c.id⟩
            rfl rfl (by rw [hc'cur]; exact htnotcur)
            (fun t2 ht2 => by
              have ht3 : St.parked tmp = St.parked t2 := ht2
              injection ht3 with h
              rw [← h]
              exact htnot.2)
          rw [hcurc, hc'cur] at hinv2
          have hrdL' : restDiffs
              (L₁ ++ (⟨St.parked tmp, c.b, c.a, c.id⟩ : Cell) :: L₂) = r := by
            rw [restDiffs_append, restDiffs_cons_parked rfl, hrd1, hr]
            rfl
          have hpkL : parkedPairs (L₁ ++ c :: L₂) =
              parkedPairs L₁ ++ parkedPairs L₂ := by
            rw [parkedPairs_append, parkedPairs_cons_untouched hst]
          have hperm' : (D ++ [(tmp, a)]).Perm (parkedPairs
              (L₁ ++ (⟨St.parked tmp, c.b, c.a, c.id⟩ : Cell) :: L₂)) := by
            rw [parkedPairs_append, parkedPairs_cons_parked rfl, hca2]
            have hp1 : (D ++ [(tmp, a)]).Perm
                ((parkedPairs L₁ ++ parkedPairs L₂) ++ [(tmp, a)]) := by
              rw [← hpkL]
              exact hperm.append_right _
            have hp2 : ((parkedPairs L₁ ++ parkedPairs L₂) ++
                [(tmp, a)]).Perm
                ((tmp, a) :: (parkedPairs L₁ ++ parkedPairs L₂)) :=
              List.perm_append_singleton _ _
            exact (hp1.trans hp2).trans List.perm_middle.symm
          obtain ⟨ex1, log1, hops1, hrun, hhle⟩ := ih after
            (L₁ ++ (⟨St.parked tmp, c.b, c.a, c.id⟩ : Cell) :: L₂)
            (D ++ [(tmp, a)]) (tmp :: ex.erase b) (osRename fs b tmp)
            (log ++ [(b, tmp)]) (hops + 1) f (by rw [hrdL', hlenr]) hinv2
            hperm' (by rw [List.length_append, List.length_singleton]; omega)
          rw [hrdL'] at hrun
          rw [finalFs_replace L₁ c L₂ ⟨St.parked tmp, c.b, c.a, c.id⟩
            rfl rfl] at hrun
          refine ⟨ex1, log1, hops1, ?_, by omega⟩
          rw [← List.append_assoc] at hrun
          exact hrun
        · -- direct branch: no hop
          simp only [List.cons_append, renameLoop]
          rw [if_neg hmem]
          have hanotcur : a ∉ curNames (L₁ ++ c :: L₂) :=
            fun hx => hmem ((hInv.exIff a).mpr hx)
          have hc'cur : cur (⟨St.done, c.b, c.a, c.id⟩ : Cell) = a := by
            simp [cur]
            exact hca2
          have hinv2 := inv_replace hInv ⟨St.done, c.b, c.a, c.id⟩ rfl rfl
            (by rw [hc'cur]; exact hanotcur) (fun t2 ht2 => by simp at ht2)
          rw [hcurc, hc'cur] at hinv2
          have hrdL' : restDiffs
              (L₁ ++ (⟨St.done, c.b, c.a, c.id⟩ : Cell) :: L₂) = r := by
            rw [restDiffs_append, restDiffs_cons_done rfl, hrd1, hr]
            rfl
          have hperm' : D.Perm (parkedPairs
              (L₁ ++ (⟨St.done, c.b, c.a, c.id⟩ : Cell) :: L₂)) := by
            rw [parkedPairs_append, parkedPairs_cons_done rfl]
            rw [parkedPairs_append, parkedPairs_cons_untouched hst] at hperm
            exact hperm
          obtain ⟨ex1, log1, hops1, hrun, hhle⟩ := ih after
            (L₁ ++ (⟨St.done, c.b, c.a, c.id⟩ : Cell) :: L₂) D
            (a :: ex.erase b) (osRename fs b a) (log ++ [(b, a)]) hops f
            (by rw [hrdL', hlenr]) hinv2 hperm' (by omega)
          rw [hrdL'] at hrun
          rw [finalFs_replace L₁ c L₂ ⟨St.done, c.b, c.a, c.id⟩
            rfl rfl] at hrun
          exact ⟨ex1, log1, hops1, hrun, by omega⟩

/-- Ghost cells for the initial state: every position untouched, carrying
its baseline name, target name and file identity. -/
def mkCells : List String → List String → List Nat → List Cell
  | b :: bs, a :: as1, i :: is1 => ⟨.untouched, b, a, i⟩ :: mkCells bs as1 is1
  | _, _, _ => []

lemma mkCells_map_a : ∀ (bs as1 : List String) (is1 : List Nat),
    bs.length = as1.length → bs.length = is1.length →
    (mkCells bs as1 is1).map Cell.a = as1 := by
  intro bs
  induction bs with
  | nil =>
    intro as1 is1 h1 _
    rw [show as1 = [] from List.length_eq_zero.mp h1.symm]
    rfl
  | cons b bs ih =>
    intro as1 is1 h1 h2
    cases as1 with
    | nil => simp at h1
    | cons a as1 =>
      cases is1 with
      | nil => simp at h2
      | cons i is1 =>
        simp only [mkCells, List.map_cons]
        rw [ih as1 is1 (by simpa using h1) (by simpa using h2)]

lemma mkCells_curNames : ∀ (bs as1 : List String) (is1 : List Nat),
    bs.length = as1.length → bs.length = is1.length →
    curNames (mkCells bs as1 is1) = bs := by
  intro bs
  induction bs with
  | nil => intro as1 is1 _ _; rfl
  | cons b bs ih =>
    intro as1 is1 h1 h2
    cases as1 with
    | nil => simp at h1
    | cons a as1 =>
      cases is1 with
      | nil => simp at h2
      | cons i is1 =>
        simp only [mkCells, curNames, List.map_cons]
        rw [show List.map cur (mkCells bs as1 is1) = bs from
          ih as1 is1 (by simpa using h1) (by simpa using h2)]
        rfl

lemma mkCells_fsOf : ∀ (bs as1 : List String) (is1 : List Nat),
    bs.length = as1.length → bs.length = is1.length →
    fsOf (mkCells bs as1 is1) = bs.zip is1 := by
  intro bs
  induction bs with
  | nil => intro as1 is1 _ _; rfl
  | cons b bs ih =>
    intro as1 is1 h1 h2
    cases as1 with
    | nil => simp at h1
    | cons a as1 =>
      cases is1 with
      | nil => simp at h2
      | cons i is1 =>
        simp only [mkCells, fsOf, List.map_cons, List.zip_cons_cons]
        rw [show List.map (fun c => (cur c, c.id)) (mkCells bs as1 is1) =
            bs.zip is1 from
          ih as1 is1 (by simpa using h1) (by simpa using h2)]
        rfl

lemma mkCells_finalFs : ∀ (bs as1 : List String) (is1 : List Nat),
    bs.length = as1.length → bs.length = is1.length →
    finalFs (mkCells bs as1 is1) = as1.zip is1 := by
  intro bs
  induction bs with
  | nil =>
    intro as1 is1 h1 h2
    rw [show as1 = [] from List.length_eq_zero.mp h1.symm]
    rfl
  | cons b bs ih =>
    intro as1 is1 h1 h2
    cases as1 with
    | nil => simp at h1
    | cons a as1 =>
      cases is1 with
      | nil => simp at h2
      | cons i is1 =>
        simp only [mkCells, finalFs, List.map_cons, List.zip_cons_cons]
        rw [show List.map (fun c => (c.a, c.id)) (mkCells bs as1 is1) =
            as1.zip is1 from
          ih as1 is1 (by simpa using h1) (by simpa using h2)]

lemma mkCells_restDiffs : ∀ (bs as1 : List String) (is1 : List Nat),
    bs.length = as1.length → bs.length = is1.length →
    restDiffs (mkCells bs as1 is1) =
      (bs.zip as1).filter fun p => decide (p.1 ≠ p.2) := by
  intro bs
  induction bs with
  | nil =>
    intro as1 is1 h1 _
    rw [show as1 = [] from List.length_eq_zero.mp h1.symm]
    rfl
  | cons b bs ih =>
    intro as1 is1 h1 h2
    cases as1 with
    | nil => simp at h1
    | cons a as1 =>
      cases is1 with
      | nil => simp at h2
      | cons i is1 =>
        by_cases hne : b ≠ a
        · rw [show mkCells (b :: bs) (a :: as1) (i :: is1) =
              (⟨.untouched, b, a, i⟩ : Cell) :: mkCells bs as1 is1 from rfl,
            restDiffs_cons_untouched_ne rfl hne,
            ih as1 is1 (by simpa using h1) (by simpa using h2),
            List.zip_cons_cons, List.filter_cons]
          simp [hne]
        · have hbe : b = a := not_not.mp hne
          rw [show mkCells (b :: bs) (a :: as1) (i :: is1) =
              (⟨.untouched, b, a, i⟩ : Cell) :: mkCells bs as1 is1 from rfl]
          rw [show restDiffs
              ((⟨.untouched, b, a, i⟩ : Cell) :: mkCells bs as1 is1) =
              restDiffs (mkCells bs as1 is1) from by
            simp [restDiffs, List.filterMap_cons, hbe]]
          rw [ih as1 is1 (by simpa using h1) (by simpa using h2),
            List.zip_cons_cons, List.filter_cons]
          simp [hbe]

lemma mkCells_parked : ∀ (bs as1 : List String) (is1 : List Nat),
    parkedPairs (mkCells bs as1 is1) = [] := by
  intro bs
  induction bs with
  | nil => intro as1 is1; rfl
  | cons b bs ih =>
    intro as1 is1
    cases as1 with
    | nil => rfl
    | cons a as1 =>
      cases is1 with
      | nil => rfl
      | cons i is1 =>
        rw [show mkCells (b :: bs) (a :: as1) (i :: is1) =
          (⟨.untouched, b, a, i⟩ : Cell) :: mkCells bs as1 is1 from rfl]
        rw [parkedPairs_cons_untouched rfl]
        exact ih as1 is1

end RenameProof

namespace DiredRenameCommitCommand

open RenameProof

lemma zip_filter_ne_nil_eq : ∀ (l1 l2 : List String),
    l1.length = l2.length →
    (l1.zip l2).filter (fun p => decide (p.1 ≠ p.2)) = [] → l1 = l2 := by
  intro l1
  induction l1 with
  | nil =>
    intro l2 h _
    exact (List.length_eq_zero.mp h.symm).symm
  | cons x l1 ih =>
    intro l2 h hf
    cases l2 with
    | nil => simp at h
    | cons y l2 =>
      rw [List.zip_cons_cons, List.filter_cons] at hf
      by_cases hxy : x = y
      · subst hxy
        rw [if_neg (by simp)] at hf
        rw [ih l2 (by simpa using h) hf]
      · exfalso
        rw [if_pos (by simpa using hxy)] at hf
        simp at hf

/-- General correctness of the rename commit on a directory whose contents
are the baseline: the loop terminates within its fuel, the final directory
pairs each target name with the file identity of its baseline position, and
at most one temporary hop is taken per diff entry. -/
lemma commit_ok_general (before after : List String) (ids : List Nat)
    (h1 : before.Nodup) (h2 : after.Nodup)
    (h3 : before.length = after.length) (h4 : ids.length = before.length) :
    ∃ log hops,
      commit before after (before.zip ids) = .ok (after.zip ids) log hops ∧
      hops ≤ ((before.zip after).filter fun p => decide (p.1 ≠ p.2)).length := by
  rw [commit, if_neg (not_not_intro h3.symm),
    if_neg (not_not_intro ((Dired.dedup_length_eq_iff after).mpr h2))]
  by_cases hd : ((before.zip after).filter fun p => decide (p.1 ≠ p.2)) = []
  · have hba : before = after := zip_filter_ne_nil_eq before after h3 hd
    subst hba
    rw [if_pos (by rw [hd]; rfl)]
    exact ⟨[], 0, rfl, by omega⟩
  · rw [if_neg (by simpa using hd)]
    have h4' : before.length = ids.length := h4.symm
    have hrd := mkCells_restDiffs before after ids h3 h4'
    have hInv0 : Inv after (mkCells before after ids) before.dedup
        (before.zip ids) := by
      refine ⟨mkCells_map_a before after ids h3 h4', h2, ?_, ?_, ?_, ?_, ?_⟩
      · rw [mkCells_curNames before after ids h3 h4']
        exact h1
      · intro s
        rw [mkCells_curNames before after ids h3 h4']
        exact List.mem_dedup
      · exact List.nodup_dedup before
      · rw [mkCells_fsOf before after ids h3 h4']
      · rw [mkCells_parked before after ids]
        intro p hp
        simp at hp
    obtain ⟨ex1, log1, hops1, hrun, hle⟩ := phase1
      (((before.zip after).filter fun p => decide (p.1 ≠ p.2)).length) after
      (mkCells before after ids) [] before.dedup (before.zip ids) [] 0
      (2 * ((before.zip after).filter fun p => decide (p.1 ≠ p.2)).length)
      (by rw [hrd]) hInv0 (by rw [mkCells_parked before after ids]) (by simp)
    rw [hrd, List.append_nil] at hrun
    rw [mkCells_finalFs before after ids h3 h4'] at hrun
    rw [hrun]
    exact ⟨log1, hops1, rfl, by omega⟩

/-- The hop counter never decreases along the loop. -/
lemma renameLoop_hops_mono : ∀ (fuel : Nat) (after : List String)
    (q : List (String × String)) (ex : List String) (fs : Fs)
    (log : List (String × String)) (hops : Nat)
    (r : List String × Fs × List (String × String) × Nat),
    renameLoop after fuel q ex fs log hops = some r → hops ≤ r.2.2.2 := by
  intro fuel
  induction fuel with
  | zero =>
    intro after q ex fs log hops r h
    cases q with
    | nil =>
      simp only [renameLoop, Option.some.injEq] at h
      rw [← h]
    | cons p q1 =>
      simp only [renameLoop] at h
      exact Option.noConfusion h
  | succ f ih =>
    intro after q ex fs log hops r h
    cases q with
    | nil =>
      simp only [renameLoop, Option.some.injEq] at h
      rw [← h]
    | cons p q1 =>
      obtain ⟨b, a⟩ := p
      simp only [renameLoop] at h
      by_cases hmem : a ∈ ex
      · rw [if_pos hmem] at h
        have := ih _ _ _ _ _ _ _ h
        omega
      · rw [if_neg hmem] at h
        exact ih _ _ _ _ _ _ _ h

/-- On the two-element swap the first queue step is forced into the deferral
branch, so every successful commit run reports at least one hop. -/
lemma commit_swap_first_hop (a b : String) (i j : Nat) (hab : a ≠ b) :
    ∀ fs1 log hops,
      commit [a, b] [b, a] [(a, i), (b, j)] = .ok fs1 log hops →
      1 ≤ hops := by
  intro fs1 log hops h
  have hdedup : [a, b].dedup = [a, b] :=
    List.dedup_eq_self.mpr (by simp [hab])
  have hdedup2 : [b, a].dedup = [b, a] :=
    List.dedup_eq_self.mpr (by simp [Ne.symm hab])
  have hdiffs : (([a, b].zip [b, a]).filter fun p => decide (p.1 ≠ p.2)) =
      [(a, b), (b, a)] := by
    simp [hab, Ne.symm hab]
  rw [commit, if_neg (by simp), if_neg (by rw [hdedup2]; simp),
    if_neg (by rw [hdiffs]; simp), hdiffs, hdedup] at h
  have hstep : renameLoop [b, a] (2 * ([(a, b), (b, a)] :
      List (String × String)).length) [(a, b), (b, a)] [a, b]
      [(a, i), (b, j)] [] 0 =
      renameLoop [b, a] 3
        ([(b, a)] ++ [(tmpName ([a, b] ++ [b, a]), b)])
        (tmpName ([a, b] ++ [b, a]) :: [a, b].erase a)
        (osRename [(a, i), (b, j)] a (tmpName ([a, b] ++ [b, a])))
        ([] ++ [(a, tmpName ([a, b] ++ [b, a]))]) 1 := by
    rw [show (2 * ([(a, b), (b, a)] : List (String × String)).length) = 4
      from rfl]
    simp only [renameLoop]
    rw [if_pos (by simp)]
  rw [hstep] at h
  cases hr : renameLoop [b, a] 3
      ([(b, a)] ++ [(tmpName ([a, b] ++ [b, a]), b)])
      (tmpName ([a, b] ++ [b, a]) :: [a, b].erase a)
      (osRename [(a, i), (b, j)] a (tmpName ([a, b] ++ [b, a])))
      ([] ++ [(a, tmpName ([a, b] ++ [b, a]))]) 1 with
  | none => rw [hr] at h; simp at h
  | some r =>
    obtain ⟨ex1, fs2, log2, hops2⟩ := r
    rw [hr] at h
    simp only [CommitResult.ok.injEq] at h
    obtain ⟨hfs, hlog, hhops⟩ := h
    have hm : 1 ≤ hops2 := renameLoop_hops_mono 3 _ _ _ _ _ _ _ hr
    omega

end DiredRenameCommitCommand

open DiredRenameCommitCommand in
/-- C2. Rename-commit validation atomicity: a line-count mismatch fails with
the line-count error and a duplicate name in the edited list fails with the
duplicate-name error; in both cases the view state is returned unchanged
(no rename performed, baseline and rename-mode flag intact) and no refresh
runs. -/
theorem commit_validation_atomic (v : ViewState) (before after : List String)
    (hb : v.rename = some before) :
    (after.length ≠ before.length →
      runCommit v after = (v, .lineCountError, false)) ∧
    (after.length = before.length → ¬ after.Nodup →
      runCommit v after = (v, .duplicateError, false)) := by
  constructor
  · intro h1
    simp only [runCommit, hb, commit, if_pos h1]
  · intro h1 h2
    have hdup : after.dedup.length ≠ after.length :=
      fun hc => h2 ((dedup_length_eq_iff after).mp hc)
    simp only [runCommit, hb, commit, if_neg (not_not_intro h1), if_pos hdup]

open DiredRenameCommitCommand in
/-- Closed instance of the validation-atomicity theorem: a shortened list and
a duplicated list, both against baseline `[a, b]`. -/
theorem commit_validation_atomic_witness :
    runCommit ⟨some ["a", "b"], true, [("a", 0), ("b", 1)]⟩ ["a"] =
      (⟨some ["a", "b"], true, [("a", 0), ("b", 1)]⟩, .lineCountError, false) ∧
    runCommit ⟨some ["a", "b"], true, [("a", 0), ("b", 1)]⟩ ["a", "a"] =
      (⟨some ["a", "b"], true, [("a", 0), ("b", 1)]⟩, .duplicateError, false) :=
  ⟨(commit_validation_atomic ⟨some ["a", "b"], true, [("a", 0), ("b", 1)]⟩
      ["a", "b"] ["a"] rfl).1 (by decide),
   (commit_validation_atomic ⟨some ["a", "b"], true, [("a", 0), ("b", 1)]⟩
      ["a", "b"] ["a", "a"] rfl).2 rfl (by decide)⟩

open DiredRenameCommitCommand in
/-- C9. Rename-commit identity: when the edited list equals the baseline the
diff set is empty, so the commit performs zero renames and still succeeds,
clearing the stored baseline, leaving rename mode and refreshing the view
with the directory contents untouched. -/
theorem commit_identity (v : ViewState) (before : List String)
    (hb : v.rename = some before) (hnd : before.Nodup) :
    runCommit v before = (⟨none, false, v.fs⟩, .committed [] 0, true) := by
  have hcommit : commit before before v.fs = .ok v.fs [] 0 := by
    rw [commit, if_neg (not_not_intro rfl),
      if_neg (not_not_intro ((dedup_length_eq_iff before).mpr hnd))]
    simp only [zip_self_filter_ne, List.isEmpty_nil, if_true]
  simp only [runCommit, hb, hcommit]

open DiredRenameCommitCommand in
/-- C1. Rename-commit cycle resolution: for baseline `[a, b]` edited to
`[b, a]`, the FIFO work-queue terminates with exactly two entries named `a`
and `b` whose file identities are swapped, takes at least one rename through
a freshly allocated temporary name, and raises neither the duplicate-name
nor the line-count error; in general, for any valid edit of a directory
matching its baseline, the queue terminates with every target name holding
its baseline position's file, with at most one temporary hop per diff
entry (hence per cycle member). -/
theorem rename_commit_cycle_resolution (a b : String) (i j : Nat)
    (hab : a ≠ b) :
    (∃ log hops,
      commit [a, b] [b, a] [(a, i), (b, j)] =
        .ok [(b, i), (a, j)] log hops ∧ 1 ≤ hops) ∧
    (∀ (before after : List String) (ids : List Nat),
      before.Nodup → after.Nodup → before.length = after.length →
      ids.length = before.length →
      ∃ log hops,
        commit before after (before.zip ids) = .ok (after.zip ids) log hops ∧
        hops ≤
          ((before.zip after).filter fun p => decide (p.1 ≠ p.2)).length) := by
  constructor
  · obtain ⟨log, hops, hok, hle⟩ := commit_ok_general [a, b] [b, a] [i, j]
      (by simp [hab]) (by simp [Ne.symm hab]) rfl rfl
    exact ⟨log, hops, hok, commit_swap_first_hop a b i j hab _ _ _ hok⟩
  · intro before after ids hb ha hlen hid
    exact commit_ok_general before after ids hb ha hlen hid

open DiredRenameCommitCommand in
/-- Closed instance of the cycle-resolution theorem at two concrete names. -/
theorem rename_commit_cycle_resolution_witness :
    ∃ log hops,
      commit ["a", "b"] ["b", "a"] [("a", 0), ("b", 1)] =
        .ok [("b", 0), ("a", 1)] log hops ∧ 1 ≤ hops :=
  (rename_commit_cycle_resolution "a" "b" 0 1 (by decide)).1

open DiredRenameCommitCommand in
/-- Closed instance of the identity theorem. -/
theorem commit_identity_witness :
    runCommit ⟨some ["a", "b"], true, [("a", 0), ("b", 1)]⟩ ["a", "b"] =
      (⟨none, false, [("a", 0), ("b", 1)]⟩, .committed [] 0, true) :=
  commit_identity ⟨some ["a", "b"], true, [("a", 0), ("b", 1)]⟩ ["a", "b"]
    rfl (by decide)

end Dired
